import Mathlib

/-!
Shallow embedding of `src/txtoml/txtoml.py`: the `constrain` function and its
nested `caret` helper, which translate Poetry version-constraint notation to
pip notation.  Python strings are modelled as `List Char`; Python dicts
(ordered mappings with unique keys) as ordered association lists.
-/

namespace Txtoml

abbrev Str := List Char

/-- `version.lstrip("^")`: removes every leading `'^'` character. -/
def lstripCaret : Str → Str
  | [] => []
  | c :: cs => if c = '^' then lstripCaret cs else c :: cs

/-- `re.findall("\d+", s)`: the maximal runs of digit characters of `s`, in
order (`\d` modelled as the ASCII digits, which are the only digits in scope).
`run` holds the digits of the current run, in reverse. -/
def findallAux (run : List Char) : List Char → List (List Char)
  | [] => if run = [] then [] else [run.reverse]
  | c :: cs =>
    if c.isDigit then findallAux (c :: run) cs
    else if run = [] then findallAux [] cs
    else run.reverse :: findallAux [] cs

/-- `re.findall("\d+", s)`. -/
def findallDigits (s : Str) : List (List Char) := findallAux [] s

/-- `int(s)` on a run of decimal digits. -/
def natOfDigits (ds : List Char) : Nat :=
  ds.foldl (fun a c => 10 * a + (c.toNat - '0'.toNat)) 0

/-- `str(n)` for a natural number (core decimal rendering). -/
def natToStr (n : Nat) : Str := Nat.toDigits 10 n

/-- The loop `for index, number in enumerate(numbers): if number > 0: … break`
of `caret`.  Returns `some` of the updated list when the `break` was taken
(leftmost positive entry incremented, every later entry zeroed, earlier
entries kept), `none` when the loop ran to completion. -/
def bumpLoop : List Nat → Option (List Nat)
  | [] => none
  | n :: ns =>
    if 0 < n then some ((n + 1) :: ns.map fun _ => 0)
    else
      match bumpLoop ns with
      | some ns' => some (n :: ns')
      | none => none

/-- `numbers[-1] += 1`, the `for`/`else` fallback branch.  On `[]` the Python
raises `IndexError`; that case is unreachable for every input that contains a
digit, which all claims assume. -/
def incrementLast : List Nat → List Nat
  | [] => []
  | [n] => [n + 1]
  | n :: m :: ns => n :: incrementLast (m :: ns)

/-- The whole `for`/`else` block of `caret`. -/
def bump (numbers : List Nat) : List Nat :=
  match bumpLoop numbers with
  | some ns => ns
  | none => incrementLast numbers

/-- `version = version.lstrip("^")` followed by
`lower_bound = version + ".0" * (2 - version.count("."))`.
(Python's `str * k` is empty for `k ≤ 0`, as is `Nat` subtraction here.) -/
def caretLowerBound (version : Str) : Str :=
  let v := lstripCaret version
  v ++ (List.replicate (2 - v.count '.') ['.', '0']).flatten

/-- `numbers = [int(i) for i in re.findall("\d+", lower_bound)]`. -/
def caretNumbers (version : Str) : List Nat :=
  (findallDigits (caretLowerBound version)).map natOfDigits

/-- `upper_bound = ".".join([str(i) for i in numbers])` after the bump loop. -/
def caretUpperBound (version : Str) : Str :=
  List.intercalate ['.'] ((bump (caretNumbers version)).map natToStr)

/-- The nested `caret` function: `f">={lower_bound}, <{upper_bound}"`. -/
def caret (version : Str) : Str :=
  ">=".data ++ caretLowerBound version ++ ", <".data ++ caretUpperBound version

/-- `version.replace("~", "~=")`: every occurrence of `'~'` is replaced. -/
def replaceTilde : Str → Str
  | [] => []
  | c :: cs => if c = '~' then '~' :: '=' :: replaceTilde cs else c :: replaceTilde cs

/-- `s.startswith(c)` for a one-character pattern. -/
def startsWithChar (c : Char) : Str → Bool
  | [] => false
  | a :: _ => a = c

/-- The per-entry dispatch of `constrain` on the sigil:
`^` → `caret`, `~` → `replace("~", "~=")`, otherwise `f"=={version}"`. -/
def translateOne (version : Str) : Str :=
  if startsWithChar '^' version then caret version
  else if startsWithChar '~' version then replaceTilde version
  else "==".data ++ version

/-- The reserved interpreter key `"python"`. -/
def pythonKey : Str := "python".data

/-- `d[key] = val` on a Python dict modelled as an ordered association list:
overwrite in place when the key is present, append otherwise. -/
def dictInsert (d : List (Str × Str)) (key val : Str) : List (Str × Str) :=
  if d.any fun pv => pv.1 = key then
    d.map fun pv => if pv.1 = key then (key, val) else pv
  else d ++ [(key, val)]

/-- The `for package, version in dependencies.items()` loop of `constrain`,
with `constrained_packages` as the accumulator. -/
def constrainLoop : List (Str × Str) → List (Str × Str) → List (Str × Str)
  | [], acc => acc
  | (package, version) :: rest, acc =>
    if package ≠ pythonKey then
      constrainLoop rest (dictInsert acc package (translateOne version))
    else constrainLoop rest acc

/-- `constrain(dependencies)`. -/
def constrain (dependencies : List (Str × Str)) : List (Str × Str) :=
  constrainLoop dependencies []

/-- A nonempty run of decimal digits: one dotted component of a version body. -/
def DigitRun (d : List Char) : Prop := d ≠ [] ∧ ∀ c ∈ d, c.isDigit

/-- `".".join` of a list of components. -/
def joinDots (comps : List (List Char)) : Str := List.intercalate ['.'] comps

/-- The upper-bound rule exactly as the specification states it: increment the
leftmost non-zero of the three components and zero every later one; when all
three are zero, increment only the last. -/
def specUpper3 (n0 n1 n2 : Nat) : List Nat :=
  if 0 < n0 then [n0 + 1, 0, 0]
  else if 0 < n1 then [n0, n1 + 1, 0]
  else if 0 < n2 then [n0, n1, n2 + 1]
  else [n0, n1, n2 + 1]

/-- Lexicographic `≤` on integer component lists, position by position from
the left. -/
def lexLe : List Nat → List Nat → Bool
  | [], _ => true
  | _ :: _, [] => false
  | a :: as, b :: bs => decide (a < b) || (a = b && lexLe as bs)

/-- "Right-pad with `.0` components until exactly 3 components are present",
expressed at the component level. -/
def padTo3 (comps : List (List Char)) : List (List Char) :=
  comps ++ List.replicate (3 - comps.length) ['0']

theorem joinDots_one (a : List Char) : joinDots [a] = a := by
  simp [joinDots, List.intercalate]

theorem joinDots_cons_cons (a b : List Char) (l : List (List Char)) :
    joinDots (a :: b :: l) = a ++ '.' :: joinDots (b :: l) := by
  simp [joinDots, List.intercalate, List.intersperse]

theorem joinDots_two (a b : List Char) : joinDots [a, b] = a ++ '.' :: b := by
  rw [joinDots_cons_cons, joinDots_one]

theorem joinDots_three (a b c : List Char) :
    joinDots [a, b, c] = a ++ '.' :: (b ++ '.' :: c) := by
  rw [joinDots_cons_cons, joinDots_two]

theorem mem_joinDots {c : Char} {comps : List (List Char)}
    (h : c ∈ joinDots comps) : (∃ d ∈ comps, c ∈ d) ∨ c = '.' := by
  induction comps with
  | nil => simp [joinDots, List.intercalate] at h
  | cons a l ih =>
    cases l with
    | nil =>
      rw [joinDots_one] at h
      exact Or.inl ⟨a, by simp, h⟩
    | cons b l' =>
      rw [joinDots_cons_cons] at h
      rcases List.mem_append.1 h with ha | hrest
      · exact Or.inl ⟨a, by simp, ha⟩
      · rcases List.mem_cons.1 hrest with hdot | htail
        · exact Or.inr hdot
        · rcases ih htail with ⟨d, hd, hc⟩ | hdot
          · exact Or.inl ⟨d, by simp [hd], hc⟩
          · exact Or.inr hdot

theorem digit_ne_caret {c : Char} (h : c.isDigit) : c ≠ '^' := by
  intro he; subst he; simp at h

theorem digit_ne_dot {c : Char} (h : c.isDigit) : c ≠ '.' := by
  intro he; subst he; simp at h

theorem digit_ne_tilde {c : Char} (h : c.isDigit) : c ≠ '~' := by
  intro he; subst he; simp at h

theorem lstripCaret_digitRun {d : List Char} (hd : DigitRun d) (rest : Str) :
    lstripCaret ('^' :: (d ++ rest)) = d ++ rest := by
  obtain ⟨hne, hdig⟩ := hd
  cases d with
  | nil => exact absurd rfl hne
  | cons c cs =>
    have hc : c.isDigit := hdig c (by simp)
    simp [lstripCaret, digit_ne_caret hc]

theorem count_dot_digits {d : List Char} (h : ∀ c ∈ d, c.isDigit) :
    d.count '.' = 0 := by
  rw [List.count_eq_zero]
  intro hmem
  exact digit_ne_dot (h '.' hmem) rfl

theorem findallAux_digits {d : List Char} (hd : ∀ c ∈ d, c.isDigit) :
    ∀ (run : List Char) (rest : List Char),
      findallAux run (d ++ rest) = findallAux (d.reverse ++ run) rest := by
  induction d with
  | nil => intro run rest; simp
  | cons c cs ih =>
    intro run rest
    have hc : c.isDigit := hd c (by simp)
    have hcs : ∀ x ∈ cs, x.isDigit := fun x hx => hd x (by simp [hx])
    simp only [List.cons_append, findallAux, hc, if_true]
    change findallAux (c :: run) (cs ++ rest) = _
    rw [ih hcs (c :: run) rest]
    simp

theorem findallAux_flush {run : List Char} (h : run ≠ []) {c : Char}
    (hc : ¬ c.isDigit) (cs : List Char) :
    findallAux run (c :: cs) = run.reverse :: findallAux [] cs := by
  simp [findallAux, hc, h]

theorem findallAux_stop {run : List Char} (h : run ≠ []) :
    findallAux run [] = [run.reverse] := by
  simp [findallAux, h]

theorem findallAux_digitRun {d : List Char} (hd : DigitRun d) :
    findallAux [] d = [d] := by
  have h := findallAux_digits hd.2 [] []
  rw [List.append_nil, List.append_nil] at h
  rw [h, findallAux_stop (by simp [hd.1])]
  simp

theorem findall_join3 {d0 d1 d2 : List Char}
    (h0 : DigitRun d0) (h1 : DigitRun d1) (h2 : DigitRun d2) :
    findallDigits (d0 ++ '.' :: (d1 ++ '.' :: d2)) = [d0, d1, d2] := by
  have hdot : ¬ ('.' : Char).isDigit := by decide
  unfold findallDigits
  rw [findallAux_digits h0.2, List.append_nil,
    findallAux_flush (by simp [h0.1]) hdot,
    findallAux_digits h1.2, List.append_nil,
    findallAux_flush (by simp [h1.1]) hdot,
    findallAux_digitRun h2]
  simp

theorem padTo3_digitRuns {comps : List (List Char)}
    (hd : ∀ d ∈ comps, DigitRun d) : ∀ d ∈ padTo3 comps, DigitRun d := by
  intro d hdm
  rcases List.mem_append.1 hdm with h | h
  · exact hd d h
  · rw [List.eq_of_mem_replicate h]
    exact ⟨by simp, by decide⟩

theorem caretLowerBound_pad (comps : List (List Char)) (h1 : comps ≠ [])
    (h2 : comps.length ≤ 3) (hd : ∀ d ∈ comps, DigitRun d) :
    caretLowerBound ('^' :: joinDots comps) = joinDots (padTo3 comps) := by
  rcases comps with _ | ⟨d0, _ | ⟨d1, _ | ⟨d2, rest⟩⟩⟩
  · exact absurd rfl h1
  · have hd0 : DigitRun d0 := hd d0 (by simp)
    have hl : lstripCaret ('^' :: joinDots [d0]) = d0 := by
      rw [joinDots_one]
      simpa using lstripCaret_digitRun hd0 []
    simp only [caretLowerBound, hl, count_dot_digits hd0.2]
    simp [padTo3, joinDots_three]
  · have hd0 : DigitRun d0 := hd d0 (by simp)
    have hd1 : DigitRun d1 := hd d1 (by simp)
    have hl : lstripCaret ('^' :: joinDots [d0, d1]) = d0 ++ '.' :: d1 := by
      rw [joinDots_two]
      exact lstripCaret_digitRun hd0 ('.' :: d1)
    simp only [caretLowerBound, hl, List.count_append, List.count_cons,
      count_dot_digits hd0.2, count_dot_digits hd1.2]
    simp [padTo3, joinDots_two, joinDots_three]
  · rcases rest with _ | ⟨x, xs⟩
    · have hd0 : DigitRun d0 := hd d0 (by simp)
      have hd1 : DigitRun d1 := hd d1 (by simp)
      have hd2 : DigitRun d2 := hd d2 (by simp)
      have hl : lstripCaret ('^' :: joinDots [d0, d1, d2])
          = d0 ++ '.' :: (d1 ++ '.' :: d2) := by
        rw [joinDots_three]
        exact lstripCaret_digitRun hd0 _
      simp only [caretLowerBound, hl, List.count_append, List.count_cons,
        count_dot_digits hd0.2, count_dot_digits hd1.2, count_dot_digits hd2.2]
      simp [padTo3, joinDots_three]
    · exfalso
      simp only [List.length_cons] at h2
      omega

theorem caretNumbers_pad (comps : List (List Char)) (h1 : comps ≠ [])
    (h2 : comps.length ≤ 3) (hd : ∀ d ∈ comps, DigitRun d) :
    caretNumbers ('^' :: joinDots comps) = (padTo3 comps).map natOfDigits := by
  have hlen : (padTo3 comps).length = 3 := by
    simp only [padTo3, List.length_append, List.length_replicate]
    omega
  obtain ⟨e0, e1, e2, he⟩ := List.length_eq_three.1 hlen
  have hruns := padTo3_digitRuns hd
  rw [he] at hruns
  have he0 : DigitRun e0 := hruns e0 (by simp)
  have he1 : DigitRun e1 := hruns e1 (by simp)
  have he2 : DigitRun e2 := hruns e2 (by simp)
  unfold caretNumbers
  rw [caretLowerBound_pad comps h1 h2 hd, he, joinDots_three,
    findall_join3 he0 he1 he2]

theorem bump_three (n0 n1 n2 : Nat) : bump [n0, n1, n2] = specUpper3 n0 n1 n2 := by
  by_cases h0 : 0 < n0
  · simp [bump, bumpLoop, specUpper3, h0]
  · have e0 : n0 = 0 := by omega
    by_cases h1 : 0 < n1
    · simp [bump, bumpLoop, specUpper3, h0, h1, e0]
    · have e1 : n1 = 0 := by omega
      by_cases h2 : 0 < n2
      · simp [bump, bumpLoop, specUpper3, h0, h1, h2, e0, e1]
      · simp [bump, bumpLoop, incrementLast, specUpper3, h0, h1, h2, e0, e1]

theorem specUpper3_length (n0 n1 n2 : Nat) : (specUpper3 n0 n1 n2).length = 3 := by
  unfold specUpper3
  split_ifs <;> rfl

theorem lexLe_spec (n0 n1 n2 : Nat) :
    lexLe [n0, n1, n2] (specUpper3 n0 n1 n2) = true := by
  unfold specUpper3
  split_ifs <;> simp [lexLe]

theorem replaceTilde_flatten (s : Str) :
    replaceTilde s = (s.map fun c => if c = '~' then ['~', '='] else [c]).flatten := by
  induction s with
  | nil => rfl
  | cons c cs ih => by_cases hc : c = '~' <;> simp [replaceTilde, hc, ih]

theorem replaceTilde_no_tilde {s : Str} (h : '~' ∉ s) : replaceTilde s = s := by
  induction s with
  | nil => rfl
  | cons c cs ih =>
    have hc : c ≠ '~' := fun e => h (by simp [e])
    simp [replaceTilde, hc, ih fun hm => h (by simp [hm])]

theorem tilde_not_mem_joinDots {comps : List (List Char)}
    (hd : ∀ d ∈ comps, DigitRun d) : '~' ∉ joinDots comps := by
  intro hmem
  rcases mem_joinDots hmem with ⟨d, hdm, hc⟩ | he
  · exact digit_ne_tilde ((hd d hdm).2 '~' hc) rfl
  · exact absurd he (by decide)

theorem digitChar_ne_dot (k : Nat) : Nat.digitChar k ≠ '.' := by
  by_cases h : k < 16
  · interval_cases k <;> decide
  · have h16 : Nat.digitChar k = '*' := by
      unfold Nat.digitChar
      repeat rw [if_neg (by omega)]
    rw [h16]
    decide

theorem toDigitsCore_ne_dot :
    ∀ (fuel n : Nat) (acc : List Char), (∀ c ∈ acc, c ≠ '.') →
      ∀ c ∈ Nat.toDigitsCore 10 fuel n acc, c ≠ '.' := by
  intro fuel
  induction fuel with
  | zero => intro n acc hacc; simpa [Nat.toDigitsCore] using hacc
  | succ f ih =>
    intro n acc hacc c hc
    simp only [Nat.toDigitsCore] at hc
    split at hc
    · rcases List.mem_cons.1 hc with rfl | hmem
      · exact digitChar_ne_dot _
      · exact hacc c hmem
    · refine ih (n / 10) _ ?_ c hc
      intro x hx
      rcases List.mem_cons.1 hx with rfl | hmem
      · exact digitChar_ne_dot _
      · exact hacc x hmem

theorem natToStr_ne_dot (n : Nat) : '.' ∉ natToStr n := fun h =>
  toDigitsCore_ne_dot (n + 1) n [] (by simp) '.' h rfl

theorem mem_dictInsert {d : List (Str × Str)} {k v : Str} {pv : Str × Str}
    (h : pv ∈ dictInsert d k v) : pv ∈ d ∨ pv.1 = k := by
  unfold dictInsert at h
  split at h
  · rcases List.mem_map.1 h with ⟨pw, hpw, he⟩
    by_cases hk : pw.1 = k
    · have hpv : pv = (k, v) := by rw [← he]; simp [hk]
      right; rw [hpv]
    · have hpv : pv = pw := by rw [← he]; simp [hk]
      left; rw [hpv]; exact hpw
  · rcases List.mem_append.1 h with h | h
    · exact Or.inl h
    · right; rw [List.mem_singleton.1 h]

theorem dictInsert_fresh {d : List (Str × Str)} {k : Str} (v : Str)
    (h : k ∉ d.map Prod.fst) : dictInsert d k v = d ++ [(k, v)] := by
  have hnot : ¬ (d.any fun pv => pv.1 = k) = true := by
    intro hany
    obtain ⟨pv, hpv, he⟩ := List.any_eq_true.1 hany
    rw [decide_eq_true_eq] at he
    exact h (List.mem_map.2 ⟨pv, hpv, he⟩)
  unfold dictInsert
  rw [if_neg hnot]

theorem constrainLoop_keys_ne_python :
    ∀ (deps acc : List (Str × Str)), (∀ pv ∈ acc, pv.1 ≠ pythonKey) →
      ∀ pv ∈ constrainLoop deps acc, pv.1 ≠ pythonKey := by
  intro deps
  induction deps with
  | nil => intro acc hacc pv hpv; exact hacc pv hpv
  | cons e rest ih =>
    intro acc hacc pv hpv
    obtain ⟨p, v⟩ := e
    by_cases hp : p ≠ pythonKey
    · rw [constrainLoop, if_pos hp] at hpv
      refine ih _ ?_ pv hpv
      intro pw hpw
      rcases mem_dictInsert hpw with hmem | hfst
      · exact hacc pw hmem
      · rw [hfst]; exact hp
    · rw [constrainLoop, if_neg hp] at hpv
      exact ih _ hacc pv hpv

theorem constrainLoop_keys :
    ∀ (deps acc : List (Str × Str)), (deps.map Prod.fst).Nodup →
      (∀ k ∈ acc.map Prod.fst, k ∉ deps.map Prod.fst) →
      (constrainLoop deps acc).map Prod.fst
        = acc.map Prod.fst ++ (deps.map Prod.fst).filter (fun k => k ≠ pythonKey) := by
  intro deps
  induction deps with
  | nil => intro acc _ _; simp [constrainLoop]
  | cons e rest ih =>
    intro acc hnd hacc
    obtain ⟨p, v⟩ := e
    simp only [List.map_cons] at hnd hacc ⊢
    have hpnotin := (List.nodup_cons.1 hnd).1
    have hnd' := (List.nodup_cons.1 hnd).2
    by_cases hp : p ≠ pythonKey
    · rw [constrainLoop, if_pos hp]
      have hfresh : p ∉ acc.map Prod.fst := fun hmem => hacc p hmem (by simp)
      rw [dictInsert_fresh _ hfresh, ih (acc ++ [(p, translateOne v)]) hnd' ?fresh]
      · simp [List.filter_cons, hp]
      case fresh =>
        intro k hk
        rw [List.map_append] at hk
        rcases List.mem_append.1 hk with hmem | hsing
        · exact fun hm => hacc k hmem (by simp [hm])
        · simp only [List.map_cons, List.map_nil, List.mem_singleton] at hsing
          rw [hsing]
          exact hpnotin
    · rw [constrainLoop, if_neg hp]
      rw [ih acc hnd' fun k hk hm => hacc k hk (by simp [hm])]
      have hpe : p = pythonKey := by simpa using hp
      simp [List.filter_cons, hpe]

/-- C1: For every caret constraint whose body parses to exactly three
non-negative integer components, the exclusive upper bound is obtained by
incrementing the leftmost non-zero component and zeroing every later one
(all-zero input increments only the last component, giving `0.0.1`), and the
emitted result is `>=<lower_bound>, <<upper_bound>`; in particular
`{"pkg": "^1.2.3"}` translates to `{"pkg": ">=1.2.3, <2.0.0"}`. -/
theorem claim1 :
    (∀ d0 d1 d2 : List Char, DigitRun d0 → DigitRun d1 → DigitRun d2 →
      caret ('^' :: (d0 ++ '.' :: (d1 ++ '.' :: d2)))
        = ">=".data ++ (d0 ++ '.' :: (d1 ++ '.' :: d2)) ++ ", <".data
            ++ joinDots ((specUpper3 (natOfDigits d0) (natOfDigits d1)
                (natOfDigits d2)).map natToStr)) ∧
    caret "^0.0.0".data = ">=0.0.0, <0.0.1".data ∧
    constrain [("pkg".data, "^1.2.3".data)]
      = [("pkg".data, ">=1.2.3, <2.0.0".data)] := by
  refine ⟨?_, by decide, by decide⟩
  intro d0 d1 d2 h0 h1 h2
  have hall : ∀ d ∈ [d0, d1, d2], DigitRun d := by
    intro d hdm
    simp only [List.mem_cons, List.not_mem_nil, or_false] at hdm
    rcases hdm with rfl | rfl | rfl <;> assumption
  have hpad : padTo3 [d0, d1, d2] = [d0, d1, d2] := by simp [padTo3]
  have hlow := caretLowerBound_pad [d0, d1, d2] (by simp) (by simp) hall
  rw [hpad] at hlow
  have hnum := caretNumbers_pad [d0, d1, d2] (by simp) (by simp) hall
  rw [hpad] at hnum
  rw [← joinDots_three]
  unfold caret caretUpperBound
  rw [hlow, hnum]
  simp only [List.map_cons, List.map_nil]
  rw [bump_three]
  rfl

theorem claim1_witness :
    DigitRun ['1'] ∧
    caret ('^' :: (['1'] ++ '.' :: (['2'] ++ '.' :: ['3'])))
      = ">=".data ++ (['1'] ++ '.' :: (['2'] ++ '.' :: ['3'])) ++ ", <".data
          ++ joinDots ((specUpper3 (natOfDigits ['1']) (natOfDigits ['2'])
              (natOfDigits ['3'])).map natToStr) :=
  ⟨⟨by simp, by decide⟩, claim1.1 ['1'] ['2'] ['3'] ⟨by simp, by decide⟩
    ⟨by simp, by decide⟩ ⟨by simp, by decide⟩⟩

/-- C2: For every valid caret input (1–3 dot-separated digit components) the
three parsed lower-bound components are lexicographically ≤ the computed
upper-bound components, compared position by position as integers. -/
theorem claim2 (comps : List (List Char)) (h1 : comps ≠ [])
    (h2 : comps.length ≤ 3) (hd : ∀ d ∈ comps, DigitRun d) :
    lexLe (caretNumbers ('^' :: joinDots comps))
      (bump (caretNumbers ('^' :: joinDots comps))) = true := by
  have hnum := caretNumbers_pad comps h1 h2 hd
  have hlen : ((padTo3 comps).map natOfDigits).length = 3 := by
    simp only [List.length_map, padTo3, List.length_append, List.length_replicate]
    omega
  obtain ⟨n0, n1, n2, he⟩ := List.length_eq_three.1 hlen
  rw [hnum, he, bump_three]
  exact lexLe_spec n0 n1 n2

theorem claim2_witness :
    ([['0'], ['9'], ['3']] : List (List Char)) ≠ [] ∧
    ([['0'], ['9'], ['3']] : List (List Char)).length ≤ 3 ∧
    lexLe (caretNumbers ('^' :: joinDots [['0'], ['9'], ['3']]))
      (bump (caretNumbers ('^' :: joinDots [['0'], ['9'], ['3']]))) = true :=
  ⟨by simp, by simp, claim2 [['0'], ['9'], ['3']] (by simp) (by simp)
    (by intro d hdm
        simp only [List.mem_cons, List.not_mem_nil, or_false] at hdm
        rcases hdm with rfl | rfl | rfl <;> exact ⟨by simp, by decide⟩)⟩

/-- C3: A caret body with fewer than three components is right-padded with
`.0` components to exactly three, and the padded string is used verbatim as
the inclusive lower bound before bound computation; `{"pkg": "^1.2"}`
translates to `{"pkg": ">=1.2.0, <2.0.0"}`, and `^1` produces lower bound
`1.0.0` and upper bound `2.0.0`. -/
theorem claim3 :
    (∀ comps : List (List Char), comps ≠ [] → comps.length < 3 →
      (∀ d ∈ comps, DigitRun d) →
      caretLowerBound ('^' :: joinDots comps) = joinDots (padTo3 comps) ∧
      caret ('^' :: joinDots comps)
        = ">=".data ++ joinDots (padTo3 comps) ++ ", <".data
            ++ caretUpperBound ('^' :: joinDots comps)) ∧
    constrain [("pkg".data, "^1.2".data)]
      = [("pkg".data, ">=1.2.0, <2.0.0".data)] ∧
    caretLowerBound "^1".data = "1.0.0".data ∧
    caret "^1".data = ">=1.0.0, <2.0.0".data := by
  refine ⟨?_, by decide, by decide, by decide⟩
  intro comps h1 h2 hd
  have hl := caretLowerBound_pad comps h1 (Nat.le_of_lt h2) hd
  exact ⟨hl, by unfold caret; rw [hl]⟩

theorem claim3_witness :
    ([['1'], ['2']] : List (List Char)) ≠ [] ∧
    ([['1'], ['2']] : List (List Char)).length < 3 ∧
    (caretLowerBound ('^' :: joinDots [['1'], ['2']])
        = joinDots (padTo3 [['1'], ['2']]) ∧
      caret ('^' :: joinDots [['1'], ['2']])
        = ">=".data ++ joinDots (padTo3 [['1'], ['2']]) ++ ", <".data
            ++ caretUpperBound ('^' :: joinDots [['1'], ['2']])) :=
  ⟨by simp, by simp, claim3.1 [['1'], ['2']] (by simp) (by simp)
    (by intro d hdm
        simp only [List.mem_cons, List.not_mem_nil, or_false] at hdm
        rcases hdm with rfl | rfl <;> exact ⟨by simp, by decide⟩)⟩

/-- C4: Every entry keyed by the reserved interpreter name `"python"` is
filtered out and never appears in the output; in particular
`{"python": "^3.8"}` translates to the empty mapping. -/
theorem claim4 :
    (∀ deps : List (Str × Str), ∀ pv ∈ constrain deps, pv.1 ≠ pythonKey) ∧
    constrain [("python".data, "^3.8".data)] = [] := by
  refine ⟨?_, by decide⟩
  intro deps pv hpv
  exact constrainLoop_keys_ne_python deps [] (by simp) pv hpv

theorem claim4_witness :
    ("a".data, "==1.2.3".data)
        ∈ constrain [("python".data, "^3.8".data), ("a".data, "1.2.3".data)] ∧
    ("a".data, "==1.2.3".data).1 ≠ pythonKey :=
  ⟨by decide,
    claim4.1 [("python".data, "^3.8".data), ("a".data, "1.2.3".data)]
      ("a".data, "==1.2.3".data) (by decide)⟩

/-- C5: For every input with unique keys, the output of `constrain` contains
each non-`"python"` input key exactly once, in the same relative order; when
the reserved key is absent the output has exactly the input's keys in the
input's order. -/
theorem claim5 (deps : List (Str × Str)) (h : (deps.map Prod.fst).Nodup) :
    (constrain deps).map Prod.fst
        = (deps.map Prod.fst).filter (fun k => k ≠ pythonKey) ∧
      (pythonKey ∉ deps.map Prod.fst →
        (constrain deps).map Prod.fst = deps.map Prod.fst) := by
  unfold constrain
  have hk := constrainLoop_keys deps [] h (by simp)
  simp only [List.map_nil, List.nil_append] at hk
  refine ⟨hk, ?_⟩
  intro hnp
  rw [hk]
  apply List.filter_eq_self.2
  intro k hkm
  rw [decide_eq_true_eq]
  intro he
  rw [he] at hkm
  exact hnp hkm

theorem claim5_witness :
    (([("a".data, "1.2.3".data), ("python".data, "^3.8".data),
        ("b".data, "~1.0".data)].map Prod.fst).Nodup) ∧
    ((constrain [("a".data, "1.2.3".data), ("python".data, "^3.8".data),
          ("b".data, "~1.0".data)]).map Prod.fst
        = ([("a".data, "1.2.3".data), ("python".data, "^3.8".data),
            ("b".data, "~1.0".data)].map Prod.fst).filter
              (fun k => k ≠ pythonKey) ∧
      (pythonKey ∉ [("a".data, "1.2.3".data), ("python".data, "^3.8".data),
            ("b".data, "~1.0".data)].map Prod.fst →
        (constrain [("a".data, "1.2.3".data), ("python".data, "^3.8".data),
            ("b".data, "~1.0".data)]).map Prod.fst
          = [("a".data, "1.2.3".data), ("python".data, "^3.8".data),
              ("b".data, "~1.0".data)].map Prod.fst)) :=
  ⟨by decide, claim5 _ (by decide)⟩

/-- C6: A tilde constraint over 1–3 dot-separated digit components is
translated by replacing the `~` with `~=`; in particular `{"pkg": "~1.2.3"}`
translates to `{"pkg": "~=1.2.3"}`. -/
theorem claim6 :
    (∀ comps : List (List Char), comps ≠ [] → comps.length ≤ 3 →
      (∀ d ∈ comps, DigitRun d) →
      translateOne ('~' :: joinDots comps) = '~' :: '=' :: joinDots comps) ∧
    constrain [("pkg".data, "~1.2.3".data)]
      = [("pkg".data, "~=1.2.3".data)] := by
  refine ⟨?_, by decide⟩
  intro comps h1 h2 hd
  have hnotin : '~' ∉ joinDots comps := tilde_not_mem_joinDots hd
  simp [translateOne, startsWithChar, replaceTilde, replaceTilde_no_tilde hnotin]

theorem claim6_witness :
    ([['1'], ['2'], ['3']] : List (List Char)) ≠ [] ∧
    translateOne ('~' :: joinDots [['1'], ['2'], ['3']])
      = '~' :: '=' :: joinDots [['1'], ['2'], ['3']] :=
  ⟨by simp, claim6.1 [['1'], ['2'], ['3']] (by simp) (by simp)
    (by intro d hdm
        simp only [List.mem_cons, List.not_mem_nil, or_false] at hdm
        rcases hdm with rfl | rfl | rfl <;> exact ⟨by simp, by decide⟩)⟩

/-- C7: An entry whose constraint starts with neither `^` nor `~` is
rewritten as the exact pin `==<version>` with the original string unchanged;
in particular `{"pkg": "1.2.3"}` translates to `{"pkg": "==1.2.3"}`. -/
theorem claim7 :
    (∀ version : Str, startsWithChar '^' version = false →
      startsWithChar '~' version = false →
      translateOne version = '=' :: '=' :: version) ∧
    constrain [("pkg".data, "1.2.3".data)]
      = [("pkg".data, "==1.2.3".data)] := by
  refine ⟨?_, by decide⟩
  intro version hc ht
  simp [translateOne, hc, ht]

theorem claim7_witness :
    startsWithChar '^' "1.2.3".data = false ∧
    startsWithChar '~' "1.2.3".data = false ∧
    translateOne "1.2.3".data = '=' :: '=' :: "1.2.3".data :=
  ⟨by decide, by decide, claim7.1 "1.2.3".data (by decide) (by decide)⟩

/-- C8: `translate` is deterministic: running `constrain` twice on the same
input yields identical outputs. -/
theorem claim8 (deps : List (Str × Str)) : constrain deps = constrain deps := rfl

/-- C9: For a constraint starting with `~`, every occurrence of `~` in the
whole string is replaced by `~=`, not only the leading sigil; in particular
`"~1.2~3"` translates to `"~=1.2~=3"`. -/
theorem claim9 :
    (∀ version : Str, startsWithChar '~' version = true →
      translateOne version
        = (version.map fun c => if c = '~' then ['~', '='] else [c]).flatten) ∧
    constrain [("pkg".data, "~1.2~3".data)]
      = [("pkg".data, "~=1.2~=3".data)] := by
  refine ⟨?_, by decide⟩
  intro version hv
  cases version with
  | nil => simp [startsWithChar] at hv
  | cons c cs =>
    have hc : c = '~' := by simpa [startsWithChar] using hv
    subst hc
    simp only [translateOne, startsWithChar]
    rw [if_neg (by decide), if_pos (by decide)]
    exact replaceTilde_flatten _

theorem claim9_witness :
    startsWithChar '~' "~1.2~3".data = true ∧
    translateOne "~1.2~3".data
      = (("~1.2~3".data).map fun c => if c = '~' then ['~', '='] else [c]).flatten :=
  ⟨by decide, claim9.1 "~1.2~3".data (by decide)⟩

/-- C10: For every valid caret input the formatted exclusive upper bound
consists of exactly three dot-separated components — trailing zero
components are rendered, never truncated. -/
theorem claim10 (comps : List (List Char)) (h1 : comps ≠ [])
    (h2 : comps.length ≤ 3) (hd : ∀ d ∈ comps, DigitRun d) :
    ∃ u0 u1 u2 : Nat,
      bump (caretNumbers ('^' :: joinDots comps)) = [u0, u1, u2] ∧
      caretUpperBound ('^' :: joinDots comps)
        = natToStr u0 ++ '.' :: (natToStr u1 ++ '.' :: natToStr u2) ∧
      (caretUpperBound ('^' :: joinDots comps)).splitOn '.'
        = [natToStr u0, natToStr u1, natToStr u2] := by
  have hnum := caretNumbers_pad comps h1 h2 hd
  have hlen : ((padTo3 comps).map natOfDigits).length = 3 := by
    simp only [List.length_map, padTo3, List.length_append, List.length_replicate]
    omega
  obtain ⟨n0, n1, n2, he⟩ := List.length_eq_three.1 hlen
  have hb : bump (caretNumbers ('^' :: joinDots comps)) = specUpper3 n0 n1 n2 := by
    rw [hnum, he, bump_three]
  obtain ⟨u0, u1, u2, hu⟩ := List.length_eq_three.1 (specUpper3_length n0 n1 n2)
  have hup : caretUpperBound ('^' :: joinDots comps)
      = List.intercalate ['.'] [natToStr u0, natToStr u1, natToStr u2] := by
    unfold caretUpperBound
    rw [hb, hu]
    rfl
  refine ⟨u0, u1, u2, by rw [hb, hu], ?_, ?_⟩
  · rw [hup]
    exact joinDots_three _ _ _
  · rw [hup]
    refine List.splitOn_intercalate _ '.' ?_ (by simp)
    intro l hl
    simp only [List.mem_cons, List.not_mem_nil, or_false] at hl
    rcases hl with rfl | rfl | rfl <;> exact natToStr_ne_dot _

theorem claim10_witness :
    ([['1']] : List (List Char)) ≠ [] ∧
    ([['1']] : List (List Char)).length ≤ 3 ∧
    ∃ u0 u1 u2 : Nat,
      bump (caretNumbers ('^' :: joinDots [['1']])) = [u0, u1, u2] ∧
      caretUpperBound ('^' :: joinDots [['1']])
        = natToStr u0 ++ '.' :: (natToStr u1 ++ '.' :: natToStr u2) ∧
      (caretUpperBound ('^' :: joinDots [['1']])).splitOn '.'
        = [natToStr u0, natToStr u1, natToStr u2] :=
  ⟨by simp, by simp, claim10 [['1']] (by simp) (by simp)
    (by intro d hdm
        simp only [List.mem_cons, List.not_mem_nil, or_false] at hdm
        rcases hdm with rfl
        exact ⟨by simp, by decide⟩)⟩

end Txtoml
